import Mathlib

/-!
Shallow embedding of the cache simulator (`csim.c`) and proofs of the
specification's claims about it.

The embedding follows the source:
* `access_data` embeds the C function `access_data` (decode, scan, hit /
  miss / miss-with-eviction, policy metadata update).
* `replay_trace` embeds the per-record loops of the C `replay_trace`
  (set-value coalescing over the byte span, the extra pass for `M`
  records, and the `count++` after every `access_data` call).
* `print_summary` embeds the final output line.

Machine integers: C `unsigned long` addresses are modelled as `Nat` with an
explicit `% 2 ^ 64` at the one place the C code can wrap (`value + i` in the
replay loop).  Tags compare by `==` on `long` in C, which is injective in the
underlying bit pattern, so tags are modelled as the plain shifted `Nat`.
The eviction scan's `INT_MAX` initial minimum is kept as `2 ^ 31 - 1`.
-/

/-- Eviction policy, from the C `typedef enum { FIFO = 1, LRU = 2 } Policy`. -/
inductive Policy where
  | FIFO : Policy
  | LRU : Policy
deriving DecidableEq

/-- One cache line, from `struct Block { bool Valid; long tag; int trackID; }`. -/
structure Block where
  Valid : Bool
  tag : Nat
  trackID : Nat
deriving DecidableEq

/-- Geometry of a run: `S = 2 ^ s` sets, `B = 2 ^ b` bytes per line, `K`
lines per set.  The C code validates that `S` and `B` are powers of two and
computes `INT_LOG2` of them, so the embedding carries the exponents. -/
structure Geometry where
  s : Nat
  b : Nat
  K : Nat
  policy : Policy
deriving DecidableEq

/-- Whole simulation state: the cache (a list of `2 ^ s` sets, each a list of
`K` blocks) together with the global counters of `csim.c`. -/
structure SimState where
  cache : List (List Block)
  hit_count : Nat
  miss_count : Nat
  eviction_count : Nat
  count : Nat
deriving DecidableEq

/-- `allocate_cache`: every block starts invalid (the C code leaves `tag` and
`trackID` uninitialised; they are never read while `Valid` is false, so the
embedding fixes them to `0`), and all counters start at `0`. -/
def initState (g : Geometry) : SimState :=
  { cache := List.replicate (2 ^ g.s) (List.replicate g.K ⟨false, 0, 0⟩)
    hit_count := 0
    miss_count := 0
    eviction_count := 0
    count := 0 }

/-- `setIndex = (addr >> INT_LOG2(B)) & ((1 << INT_LOG2(S)) - 1)`. -/
def setIndexOf (g : Geometry) (addr : Nat) : Nat :=
  (addr >>> g.b) % 2 ^ g.s

/-- `tagBits = addr >> (INT_LOG2(S) + INT_LOG2(B))`. -/
def tagOf (g : Geometry) (addr : Nat) : Nat :=
  addr >>> (g.s + g.b)

/-- The addressed set, `currCache->sets[setIndex]`. -/
def currSetOf (g : Geometry) (st : SimState) (addr : Nat) : List Block :=
  st.cache.getD (setIndexOf g addr) []

/-- Block at an index of a set (out-of-range reads give the dummy invalid
block; they only occur outside the reachable uses of the C code). -/
def blkD (l : List Block) (i : Nat) : Block :=
  l.getD i ⟨false, 0, 0⟩

/-- The hit scan of `access_data`: first index `i` with
`(currTag == tagBits) && (currValid == 1)`, mirroring the `break` at the
first match. -/
def findHit (t : Nat) : List Block → Option Nat
  | [] => none
  | blk :: rest =>
      if blk.tag == t && blk.Valid then some 0 else (findHit t rest).map (· + 1)

/-- Index of the first invalid block, mirroring the `firstEmptySlot`
bookkeeping of the scan loop (`none` when every block is valid). -/
def firstInvalid : List Block → Option Nat
  | [] => none
  | blk :: rest =>
      if blk.Valid then (firstInvalid rest).map (· + 1) else some 0

/-- The eviction scan of `access_data`: running minimum of `trackID` with
initial value `INT_MAX` and initial victim index `0`, updated on strict
decrease only. -/
def victimScan : List Block → Nat × Nat → Nat → Nat
  | [], acc, _ => acc.2
  | blk :: rest, acc, i =>
      if blk.trackID < acc.1 then victimScan rest (blk.trackID, i) (i + 1)
      else victimScan rest acc (i + 1)

/-- `setIndexToEvict` as computed by the C loop (`minTrackID = INT_MAX`). -/
def victimIndex (l : List Block) : Nat :=
  victimScan l (2 ^ 31 - 1, 0) 0

/-- Replace the block at an index by applying `f` (out of range: no change). -/
def updBlock (f : Block → Block) : Nat → List Block → List Block
  | _, [] => []
  | 0, blk :: rest => f blk :: rest
  | n + 1, blk :: rest => blk :: updBlock f n rest

/-- The C function `access_data(addr)`: decode, scan the addressed set, then
hit / miss-install / miss-evict, updating the statistics counters.  The
global `count` is read for the recency stamp but never written here (the
caller increments it). -/
def access_data (g : Geometry) (addr : Nat) (st : SimState) : SimState :=
  let currSet := currSetOf g st addr
  match findHit (tagOf g addr) currSet with
  | some hitBlockIndex =>
      if g.policy = Policy.LRU then
        { st with
          cache := st.cache.set (setIndexOf g addr)
            (updBlock (fun blk => { blk with trackID := st.count }) hitBlockIndex currSet)
          hit_count := st.hit_count + 1 }
      else
        { st with hit_count := st.hit_count + 1 }
  | none =>
      if currSet.all (fun blk => blk.Valid) then
        { st with
          cache := st.cache.set (setIndexOf g addr)
            (updBlock (fun _ => ⟨true, tagOf g addr, st.count⟩) (victimIndex currSet) currSet)
          miss_count := st.miss_count + 1
          eviction_count := st.eviction_count + 1 }
      else
        { st with
          cache := st.cache.set (setIndexOf g addr)
            (updBlock (fun _ => ⟨true, tagOf g addr, st.count⟩)
              ((firstInvalid currSet).getD 0) currSet)
          miss_count := st.miss_count + 1 }

/-- One distinct-line access as performed by the replay loop:
`access_data(value+i); count++;`. -/
def accessN (g : Geometry) (addr : Nat) (st : SimState) : SimState :=
  let st1 := access_data g addr st
  { st1 with count := st1.count + 1 }

/-- A sequence of accesses driven the way `replay_trace` drives them. -/
def runAccesses (g : Geometry) (addrs : List Nat) (st : SimState) : SimState :=
  addrs.foldl (fun s a => accessN g a s) st

/-- One iteration of a coalescing loop of `replay_trace`: compute
`setValue = ((value+i) >> INT_LOG2(B)) & mask` (`mask` has `maskBits` low
bits set: `INT_LOG2(B)` bits in the first pass, `INT_LOG2(S)` bits in the
`M` pass) and access the line when it differs from `prevSetVal`.
`value + i` is `unsigned long` arithmetic, hence the `% 2 ^ 64`. -/
def passStep (g : Geometry) (maskBits value : Nat) (acc : SimState × Int) (i : Nat) :
    SimState × Int :=
  let a := (value + i) % 2 ^ 64
  let setValue : Int := ((a >>> g.b) % 2 ^ maskBits : Nat)
  if acc.2 ≠ setValue then (accessN g a acc.1, setValue) else acc

/-- One full coalescing pass over the byte span, `prevSetVal` starting at
`-1`. -/
def runPass (g : Geometry) (maskBits value len : Nat) (st : SimState) : SimState :=
  ((List.range len).foldl (passStep g maskBits value) (st, -1)).1

/-- A parsed trace record: `operation` is the character parsed from the
line (`'L'`, `'S'` or `'M'`), `value` the hex address, `len` the byte
count. -/
structure Record where
  operation : Char
  value : Nat
  len : Nat
deriving DecidableEq

/-- Per-record processing of `replay_trace`: one coalescing pass masked with
`(1 << INT_LOG2(B)) - 1`, then for `M` records a second pass masked with
`(1 << INT_LOG2(S)) - 1`. -/
def replayRecord (g : Geometry) (st : SimState) (r : Record) : SimState :=
  let st1 := runPass g g.b r.value r.len st
  if r.operation = 'M' then runPass g g.s r.value r.len st1 else st1

/-- The whole replay loop over the parsed records of the trace file. -/
def replay_trace (g : Geometry) (records : List Record) (st : SimState) : SimState :=
  records.foldl (replayRecord g) st

/-- `print_summary`: the single final output line. -/
def print_summary (hits misses evictions : Nat) : String :=
  "hits:" ++ toString hits ++ " misses:" ++ toString misses ++
    " evictions:" ++ toString evictions ++ "\n"

/-- The text the program emits for a geometry and a parsed trace. -/
def simOutput (g : Geometry) (records : List Record) : String :=
  print_summary (replay_trace g records (initState g)).hit_count
    (replay_trace g records (initState g)).miss_count
    (replay_trace g records (initState g)).eviction_count

/-- Number of distinct cache lines touched by the byte span
`[value, value + len)` (for `len ≥ 1`, no wrap): lines are numbered by
`addr >>> b`, and along an increasing span they form the interval from the
first to the last line. -/
def linesTouched (b value len : Nat) : Nat :=
  ((value + (len - 1)) >>> b) - (value >>> b) + 1

/-- Within a set, distinct valid lines have distinct tags. -/
def setDistinct (l : List Block) : Prop :=
  ∀ i j, i < l.length → j < l.length → i ≠ j →
    (blkD l i).Valid = true → (blkD l j).Valid = true →
    (blkD l i).tag ≠ (blkD l j).tag

/-- State just before the `N`-th (0-based) distinct-line access of a run. -/
def stateBefore (g : Geometry) (addrs : List Nat) (st : SimState) (N : Nat) : SimState :=
  runAccesses g (addrs.take N) st

/-- Counter conservation: every hit or miss was one counted access
(`count` advances once per access call), and evictions only happen on
misses. -/
def goodCounters (st : SimState) : Prop :=
  st.hit_count + st.miss_count = st.count ∧ st.eviction_count ≤ st.miss_count

/-- Every set of the cache has pairwise distinct tags on its valid lines. -/
def cacheDistinct (st : SimState) : Prop :=
  ∀ t, setDistinct (st.cache.getD t [])

/-! ## Basic list lemmas -/

theorem getD_set_ne {α : Type _} (a d : α) (xs : List α) (n t : Nat) (h : n ≠ t) :
    (xs.set n a).getD t d = xs.getD t d := by
  induction xs generalizing n t with
  | nil => rfl
  | cons x xs ih =>
    cases n with
    | zero =>
      cases t with
      | zero => exact absurd rfl h
      | succ t => simp [List.set]
    | succ n =>
      cases t with
      | zero => simp [List.set]
      | succ t => simpa [List.set] using ih n t (by omega)

theorem getD_set_self {α : Type _} (a d : α) (xs : List α) (n : Nat) (h : n < xs.length) :
    (xs.set n a).getD n d = a := by
  induction xs generalizing n with
  | nil => simp at h
  | cons x xs ih =>
    cases n with
    | zero => simp [List.set]
    | succ n => simpa [List.set] using ih n (by simpa using h)

theorem mem_of_mem_set {α : Type _} (a : α) (xs : List α) (n : Nat) (y : α)
    (h : y ∈ xs.set n a) : y = a ∨ y ∈ xs := by
  induction xs generalizing n with
  | nil => simp at h
  | cons x xs ih =>
    cases n with
    | zero =>
      rcases (by simpa [List.set] using h : y = a ∨ y ∈ xs) with h1 | h1
      · exact Or.inl h1
      · exact Or.inr (by simp [h1])
    | succ n =>
      rcases (by simpa [List.set] using h : y = x ∨ y ∈ xs.set n a) with h1 | h1
      · exact Or.inr (by simp [h1])
      · rcases ih n h1 with h2 | h2
        · exact Or.inl h2
        · exact Or.inr (by simp [h2])

theorem blkD_cons_zero (blk : Block) (rest : List Block) : blkD (blk :: rest) 0 = blk := rfl

theorem blkD_cons_succ (blk : Block) (rest : List Block) (j : Nat) :
    blkD (blk :: rest) (j + 1) = blkD rest j := rfl

theorem blkD_mem (l : List Block) (j : Nat) (h : j < l.length) : blkD l j ∈ l := by
  induction l generalizing j with
  | nil => simp at h
  | cons blk rest ih =>
    cases j with
    | zero => simp [blkD_cons_zero]
    | succ j =>
      rw [blkD_cons_succ]
      exact List.mem_cons_of_mem _ (ih j (by simpa using h))

theorem length_updBlock (f : Block → Block) (n : Nat) (l : List Block) :
    (updBlock f n l).length = l.length := by
  induction l generalizing n with
  | nil => cases n <;> rfl
  | cons blk rest ih =>
    cases n with
    | zero => simp [updBlock]
    | succ n => simpa [updBlock] using ih n

theorem blkD_updBlock_ne (f : Block → Block) (n : Nat) (l : List Block) (j : Nat)
    (h : j ≠ n) : blkD (updBlock f n l) j = blkD l j := by
  induction l generalizing n j with
  | nil => cases n <;> rfl
  | cons blk rest ih =>
    cases n with
    | zero =>
      cases j with
      | zero => exact absurd rfl h
      | succ j => simp [updBlock, blkD_cons_succ]
    | succ n =>
      cases j with
      | zero => simp [updBlock, blkD_cons_zero]
      | succ j => simpa [updBlock, blkD_cons_succ] using ih n j (by omega)

theorem blkD_updBlock_self (f : Block → Block) (n : Nat) (l : List Block)
    (h : n < l.length) : blkD (updBlock f n l) n = f (blkD l n) := by
  induction l generalizing n with
  | nil => simp at h
  | cons blk rest ih =>
    cases n with
    | zero => simp [updBlock, blkD_cons_zero]
    | succ n => simpa [updBlock, blkD_cons_succ] using ih n (by simpa using h)

/-! ## Lemmas about the hit scan -/

theorem findHit_some (t : Nat) (l : List Block) (i : Nat) (h : findHit t l = some i) :
    i < l.length ∧ (blkD l i).Valid = true ∧ (blkD l i).tag = t := by
  induction l generalizing i with
  | nil => simp [findHit] at h
  | cons blk rest ih =>
    by_cases hc : blk.tag == t && blk.Valid
    · rw [findHit, if_pos hc] at h
      cases h
      rcases Bool.and_eq_true_iff.mp hc with ⟨h1, h2⟩
      exact ⟨by simp, h2, by simpa using h1⟩
    · rw [findHit, if_neg hc] at h
      rcases Option.map_eq_some'.mp h with ⟨i', hi', rfl⟩
      rcases ih i' hi' with ⟨h1, h2, h3⟩
      exact ⟨by simpa using h1, by simpa [blkD_cons_succ] using h2,
        by simpa [blkD_cons_succ] using h3⟩

theorem findHit_none_valid_ne (t : Nat) (l : List Block) (h : findHit t l = none) :
    ∀ j, j < l.length → (blkD l j).Valid = true → (blkD l j).tag ≠ t := by
  induction l with
  | nil => intro j hj; simp at hj
  | cons blk rest ih =>
    by_cases hc : blk.tag == t && blk.Valid
    · rw [findHit, if_pos hc] at h; cases h
    · rw [findHit, if_neg hc] at h
      intro j hj hv
      cases j with
      | zero =>
        rw [blkD_cons_zero] at hv ⊢
        intro htag
        exact hc (by simp [htag, hv])
      | succ j =>
        rw [blkD_cons_succ] at hv ⊢
        exact ih (by simpa using h) j (by simpa using hj) hv

theorem findHit_isSome_of (t : Nat) (l : List Block) (j : Nat) (hj : j < l.length)
    (hv : (blkD l j).Valid = true) (ht : (blkD l j).tag = t) :
    ∃ i, findHit t l = some i := by
  induction l generalizing j with
  | nil => simp at hj
  | cons blk rest ih =>
    by_cases hc : blk.tag == t && blk.Valid
    · exact ⟨0, by rw [findHit, if_pos hc]⟩
    · cases j with
      | zero =>
        rw [blkD_cons_zero] at hv ht
        exact absurd (by simp [ht, hv]) hc
      | succ j =>
        rw [blkD_cons_succ] at hv ht
        rcases ih j (by simpa using hj) hv ht with ⟨i, hi⟩
        exact ⟨i + 1, by rw [findHit, if_neg hc, hi]; simp⟩

theorem findHit_updBlock_trackID (t : Nat) (c : Nat) (n : Nat) (l : List Block) :
    findHit t (updBlock (fun blk => { blk with trackID := c }) n l) = findHit t l := by
  induction l generalizing n with
  | nil => cases n <;> rfl
  | cons blk rest ih =>
    cases n with
    | zero => simp only [updBlock, findHit]
    | succ n => simp only [updBlock, findHit, ih n]

/-! ## Lemmas about the empty-slot scan -/

theorem firstInvalid_spec (l : List Block) (k : Nat) (h : firstInvalid l = some k) :
    k < l.length ∧ (blkD l k).Valid = false := by
  induction l generalizing k with
  | nil => simp [firstInvalid] at h
  | cons blk rest ih =>
    by_cases hc : blk.Valid
    · rw [firstInvalid, if_pos hc] at h
      rcases Option.map_eq_some'.mp h with ⟨k', hk', rfl⟩
      rcases ih k' hk' with ⟨h1, h2⟩
      exact ⟨by simpa using h1, by simpa [blkD_cons_succ] using h2⟩
    · rw [firstInvalid, if_neg hc] at h
      cases h
      exact ⟨by simp, by simpa [blkD_cons_zero] using hc⟩

theorem firstInvalid_of_not_all (l : List Block)
    (h : l.all (fun blk => blk.Valid) = false) : ∃ k, firstInvalid l = some k := by
  induction l with
  | nil => simp at h
  | cons blk rest ih =>
    by_cases hc : blk.Valid
    · have hrest : rest.all (fun blk => blk.Valid) = false := by
        simpa [List.all_cons, hc] using h
      rcases ih hrest with ⟨k, hk⟩
      exact ⟨k + 1, by rw [firstInvalid, if_pos hc, hk]; simp⟩
    · exact ⟨0, by rw [firstInvalid, if_neg hc]⟩

/-! ## Lemmas about the eviction scan -/

theorem victimScan_cases (l : List Block) :
    ∀ acc i, victimScan l acc i = acc.2 ∨ ∃ k, k < l.length ∧ victimScan l acc i = i + k := by
  induction l with
  | nil => intro acc i; exact Or.inl rfl
  | cons blk rest ih =>
    intro acc i
    simp only [victimScan]
    by_cases hc : blk.trackID < acc.1
    · rw [if_pos hc]
      rcases ih (blk.trackID, i) (i + 1) with h | ⟨k, hk, he⟩
      · exact Or.inr ⟨0, by simp, by simpa using h⟩
      · exact Or.inr ⟨k + 1, by simpa using hk, by rw [he]; omega⟩
    · rw [if_neg hc]
      rcases ih acc (i + 1) with h | ⟨k, hk, he⟩
      · exact Or.inl h
      · exact Or.inr ⟨k + 1, by simpa using hk, by rw [he]; omega⟩

theorem victimScan_all_ge (l : List Block) :
    ∀ best bestIdx i, (∀ blk ∈ l, best ≤ blk.trackID) →
      victimScan l (best, bestIdx) i = bestIdx := by
  induction l with
  | nil => intros; rfl
  | cons blk rest ih =>
    intro best bestIdx i h
    have h0 : best ≤ blk.trackID := h blk (by simp)
    simp only [victimScan]
    rw [if_neg (by omega)]
    exact ih best bestIdx (i + 1) (fun b hb => h b (by simp [hb]))

theorem victimScan_found (l : List Block) :
    ∀ best bestIdx i, (∃ blk ∈ l, blk.trackID < best) →
      ∃ k, k < l.length ∧ victimScan l (best, bestIdx) i = i + k ∧
        (blkD l k).trackID < best ∧
        (∀ j, j < l.length → (blkD l k).trackID ≤ (blkD l j).trackID) ∧
        (∀ j, j < k → (blkD l k).trackID < (blkD l j).trackID) := by
  induction l with
  | nil => intro best bestIdx i h; simp at h
  | cons blk rest ih =>
    intro best bestIdx i h
    simp only [victimScan]
    by_cases hc : blk.trackID < best
    · rw [if_pos hc]
      by_cases hall : ∀ b ∈ rest, blk.trackID ≤ b.trackID
      · refine ⟨0, by simp, ?_, by simpa [blkD_cons_zero] using hc, ?_, ?_⟩
        · rw [victimScan_all_ge rest blk.trackID i (i + 1) hall]; omega
        · intro j hj
          cases j with
          | zero => exact le_refl _
          | succ j =>
            rw [blkD_cons_zero, blkD_cons_succ]
            exact hall _ (blkD_mem rest j (by simpa using hj))
        · intro j hj; omega
      · push_neg at hall
        rcases hall with ⟨b, hb, hlt⟩
        rcases ih blk.trackID i (i + 1) ⟨b, hb, hlt⟩ with ⟨k, hk, he, h1, h2, h3⟩
        refine ⟨k + 1, by simpa using hk, by rw [he]; omega, ?_, ?_, ?_⟩
        · rw [blkD_cons_succ]; omega
        · intro j hj
          cases j with
          | zero => rw [blkD_cons_succ, blkD_cons_zero]; omega
          | succ j =>
            rw [blkD_cons_succ, blkD_cons_succ]
            exact h2 j (by simpa using hj)
        · intro j hj
          cases j with
          | zero => rw [blkD_cons_succ, blkD_cons_zero]; omega
          | succ j =>
            rw [blkD_cons_succ, blkD_cons_succ]
            exact h3 j (by omega)
    · rw [if_neg hc]
      have hrest : ∃ b ∈ rest, b.trackID < best := by
        rcases h with ⟨b, hb, hlt⟩
        rcases List.mem_cons.mp hb with rfl | hb'
        · omega
        · exact ⟨b, hb', hlt⟩
      rcases ih best bestIdx (i + 1) hrest with ⟨k, hk, he, h1, h2, h3⟩
      refine ⟨k + 1, by simpa using hk, by rw [he]; omega, by rwa [blkD_cons_succ], ?_, ?_⟩
      · intro j hj
        cases j with
        | zero => rw [blkD_cons_succ, blkD_cons_zero]; omega
        | succ j =>
          rw [blkD_cons_succ, blkD_cons_succ]
          exact h2 j (by simpa using hj)
      · intro j hj
        cases j with
        | zero => rw [blkD_cons_succ, blkD_cons_zero]; omega
        | succ j =>
          rw [blkD_cons_succ, blkD_cons_succ]
          exact h3 j (by omega)

theorem victimIndex_lt_length (l : List Block) (h : l ≠ []) : victimIndex l < l.length := by
  rcases victimScan_cases l (2 ^ 31 - 1, 0) 0 with h1 | ⟨k, hk, he⟩
  · rw [victimIndex, h1]
    exact List.length_pos.mpr h
  · rw [victimIndex, he]
    simpa using hk

theorem victimIndex_argmin (l : List Block) (hne : l ≠ [])
    (hIM : ∀ blk ∈ l, blk.trackID < 2 ^ 31 - 1) :
    victimIndex l < l.length ∧
    (∀ j, j < l.length → (blkD l (victimIndex l)).trackID ≤ (blkD l j).trackID) ∧
    (∀ j, j < victimIndex l → (blkD l (victimIndex l)).trackID < (blkD l j).trackID) := by
  have hex : ∃ blk ∈ l, blk.trackID < 2 ^ 31 - 1 := by
    cases l with
    | nil => exact absurd rfl hne
    | cons blk rest => exact ⟨blk, by simp, hIM blk (by simp)⟩
  rcases victimScan_found l (2 ^ 31 - 1) 0 0 hex with ⟨k, hk, he, h1, h2, h3⟩
  have hv : victimIndex l = k := by rw [victimIndex, he]; omega
  rw [hv]
  exact ⟨hk, h2, h3⟩

/-! ## Branch characterisations of `access_data` -/

theorem access_data_hit (g : Geometry) (addr : Nat) (st : SimState) (i : Nat)
    (hhit : findHit (tagOf g addr) (currSetOf g st addr) = some i) :
    access_data g addr st =
      if g.policy = Policy.LRU then
        { st with
          cache := st.cache.set (setIndexOf g addr)
            (updBlock (fun blk => { blk with trackID := st.count }) i (currSetOf g st addr))
          hit_count := st.hit_count + 1 }
      else { st with hit_count := st.hit_count + 1 } := by
  simp only [access_data, hhit]

theorem access_data_miss_full (g : Geometry) (addr : Nat) (st : SimState)
    (hmiss : findHit (tagOf g addr) (currSetOf g st addr) = none)
    (hfull : (currSetOf g st addr).all (fun blk => blk.Valid) = true) :
    access_data g addr st =
      { st with
        cache := st.cache.set (setIndexOf g addr)
          (updBlock (fun _ => ⟨true, tagOf g addr, st.count⟩)
            (victimIndex (currSetOf g st addr)) (currSetOf g st addr))
        miss_count := st.miss_count + 1
        eviction_count := st.eviction_count + 1 } := by
  simp only [access_data, hmiss]
  rw [if_pos hfull]

theorem access_data_miss_free (g : Geometry) (addr : Nat) (st : SimState)
    (hmiss : findHit (tagOf g addr) (currSetOf g st addr) = none)
    (hnf : (currSetOf g st addr).all (fun blk => blk.Valid) = false) :
    access_data g addr st =
      { st with
        cache := st.cache.set (setIndexOf g addr)
          (updBlock (fun _ => ⟨true, tagOf g addr, st.count⟩)
            ((firstInvalid (currSetOf g st addr)).getD 0) (currSetOf g st addr))
        miss_count := st.miss_count + 1 } := by
  simp only [access_data, hmiss]
  rw [if_neg (by simp [hnf])]

theorem access_count_eq (g : Geometry) (addr : Nat) (st : SimState) :
    (access_data g addr st).count = st.count := by
  simp only [access_data]
  split
  · split <;> rfl
  · split <;> rfl

theorem access_counts_hit (g : Geometry) (addr : Nat) (st : SimState) (i : Nat)
    (hhit : findHit (tagOf g addr) (currSetOf g st addr) = some i) :
    (access_data g addr st).hit_count = st.hit_count + 1 ∧
    (access_data g addr st).miss_count = st.miss_count ∧
    (access_data g addr st).eviction_count = st.eviction_count := by
  rw [access_data_hit g addr st i hhit]
  by_cases hp : g.policy = Policy.LRU
  · rw [if_pos hp]; exact ⟨rfl, rfl, rfl⟩
  · rw [if_neg hp]; exact ⟨rfl, rfl, rfl⟩

theorem access_counts_miss_full (g : Geometry) (addr : Nat) (st : SimState)
    (hmiss : findHit (tagOf g addr) (currSetOf g st addr) = none)
    (hfull : (currSetOf g st addr).all (fun blk => blk.Valid) = true) :
    (access_data g addr st).hit_count = st.hit_count ∧
    (access_data g addr st).miss_count = st.miss_count + 1 ∧
    (access_data g addr st).eviction_count = st.eviction_count + 1 := by
  rw [access_data_miss_full g addr st hmiss hfull]
  exact ⟨rfl, rfl, rfl⟩

theorem access_counts_miss_free (g : Geometry) (addr : Nat) (st : SimState)
    (hmiss : findHit (tagOf g addr) (currSetOf g st addr) = none)
    (hnf : (currSetOf g st addr).all (fun blk => blk.Valid) = false) :
    (access_data g addr st).hit_count = st.hit_count ∧
    (access_data g addr st).miss_count = st.miss_count + 1 ∧
    (access_data g addr st).eviction_count = st.eviction_count := by
  rw [access_data_miss_free g addr st hmiss hnf]
  exact ⟨rfl, rfl, rfl⟩

theorem access_cache_length (g : Geometry) (addr : Nat) (st : SimState) :
    (access_data g addr st).cache.length = st.cache.length := by
  simp only [access_data]
  split
  · split <;> simp [List.length_set]
  · split <;> simp [List.length_set]

/-- After any call to `access_data(addr)` (from a state whose addressed set
exists and is non-empty), the addressed set holds a valid block with the
decoded tag, so the scan finds it. -/
theorem access_installs (g : Geometry) (addr : Nat) (st : SimState)
    (hSI : setIndexOf g addr < st.cache.length)
    (hne : currSetOf g st addr ≠ []) :
    ∃ j, findHit (tagOf g addr) (currSetOf g (access_data g addr st) addr) = some j := by
  rcases hfh : findHit (tagOf g addr) (currSetOf g st addr) with _ | i
  · by_cases hfull : (currSetOf g st addr).all (fun blk => blk.Valid) = true
    · rw [access_data_miss_full g addr st hfh hfull]
      have hv := victimIndex_lt_length (currSetOf g st addr) hne
      have hset : currSetOf g
          { st with
            cache := st.cache.set (setIndexOf g addr)
              (updBlock (fun _ => ⟨true, tagOf g addr, st.count⟩)
                (victimIndex (currSetOf g st addr)) (currSetOf g st addr))
            miss_count := st.miss_count + 1
            eviction_count := st.eviction_count + 1 } addr =
          updBlock (fun _ => ⟨true, tagOf g addr, st.count⟩)
            (victimIndex (currSetOf g st addr)) (currSetOf g st addr) := by
        simp only [currSetOf]
        exact getD_set_self _ _ _ _ hSI
      rw [hset]
      refine findHit_isSome_of _ _ (victimIndex (currSetOf g st addr)) ?_ ?_ ?_
      · rw [length_updBlock]; exact hv
      · rw [blkD_updBlock_self _ _ _ hv]
      · rw [blkD_updBlock_self _ _ _ hv]
    · have hnf : (currSetOf g st addr).all (fun blk => blk.Valid) = false := by
        revert hfull; cases (currSetOf g st addr).all (fun blk => blk.Valid) <;> simp
      rw [access_data_miss_free g addr st hfh hnf]
      rcases firstInvalid_of_not_all (currSetOf g st addr) hnf with ⟨k, hk⟩
      rcases firstInvalid_spec (currSetOf g st addr) k hk with ⟨hklen, -⟩
      have hset : currSetOf g
          { st with
            cache := st.cache.set (setIndexOf g addr)
              (updBlock (fun _ => ⟨true, tagOf g addr, st.count⟩)
                ((firstInvalid (currSetOf g st addr)).getD 0) (currSetOf g st addr))
            miss_count := st.miss_count + 1 } addr =
          updBlock (fun _ => ⟨true, tagOf g addr, st.count⟩)
            ((firstInvalid (currSetOf g st addr)).getD 0) (currSetOf g st addr) := by
        simp only [currSetOf]
        exact getD_set_self _ _ _ _ hSI
      rw [hset, hk]
      refine findHit_isSome_of _ _ k ?_ ?_ ?_
      · rw [length_updBlock]; exact hklen
      · rw [Option.getD_some, blkD_updBlock_self _ _ _ hklen]
      · rw [Option.getD_some, blkD_updBlock_self _ _ _ hklen]
  · rw [access_data_hit g addr st i hfh]
    by_cases hp : g.policy = Policy.LRU
    · rw [if_pos hp]
      have hset : currSetOf g
          { st with
            cache := st.cache.set (setIndexOf g addr)
              (updBlock (fun blk => { blk with trackID := st.count }) i (currSetOf g st addr))
            hit_count := st.hit_count + 1 } addr =
          updBlock (fun blk => { blk with trackID := st.count }) i (currSetOf g st addr) := by
        simp only [currSetOf]
        exact getD_set_self _ _ _ _ hSI
      rw [hset, findHit_updBlock_trackID, hfh]
      exact ⟨i, rfl⟩
    · rw [if_neg hp]
      exact ⟨i, hfh⟩

/-! ## Arithmetic about line numbers and the coalescing value -/

theorem shiftRight_mono (n : Nat) {a c : Nat} (h : a ≤ c) : a >>> n ≤ c >>> n := by
  simp only [Nat.shiftRight_eq_div_pow]
  exact Nat.div_le_div_right h

theorem shiftRight_succ_le (a n : Nat) : (a + 1) >>> n ≤ a >>> n + 1 := by
  simp only [Nat.shiftRight_eq_div_pow]
  have hpos : 0 < 2 ^ n := Nat.two_pow_pos n
  calc (a + 1) / 2 ^ n ≤ (a + 2 ^ n) / 2 ^ n := Nat.div_le_div_right (by omega)
    _ = a / 2 ^ n + 1 := Nat.add_div_right a hpos

theorem mod_two_pow_succ_ne {m : Nat} (hm : 1 ≤ m) (x : Nat) :
    (x + 1) % 2 ^ m ≠ x % 2 ^ m := by
  intro h
  have h2 : 2 ≤ 2 ^ m := by
    calc 2 = 2 ^ 1 := rfl
    _ ≤ 2 ^ m := Nat.pow_le_pow_right (by norm_num) hm
  have hd : 2 ^ m ∣ 1 := by
    have := (Nat.modEq_iff_dvd' (Nat.le_succ x)).mp h.symm
    simpa using this
  have := Nat.le_of_dvd (by norm_num) hd
  omega

theorem neg_one_ne_natCast (n : Nat) : ((-1 : Int) = (n : Int)) → False := by
  intro h; omega

theorem accessN_count (g : Geometry) (addr : Nat) (st : SimState) :
    (accessN g addr st).count = st.count + 1 := by
  show (access_data g addr st).count + 1 = st.count + 1
  rw [access_count_eq]

theorem passStep_call (g : Geometry) (m value : Nat) (acc : SimState × Int) (i : Nat)
    (h : acc.2 ≠ (((((value + i) % 2 ^ 64) >>> g.b) % 2 ^ m : Nat) : Int)) :
    passStep g m value acc i =
      (accessN g ((value + i) % 2 ^ 64) acc.1,
        (((((value + i) % 2 ^ 64) >>> g.b) % 2 ^ m : Nat) : Int)) := by
  simp only [passStep]
  rw [if_pos h]

theorem passStep_skip (g : Geometry) (m value : Nat) (acc : SimState × Int) (i : Nat)
    (h : acc.2 = (((((value + i) % 2 ^ 64) >>> g.b) % 2 ^ m : Nat) : Int)) :
    passStep g m value acc i = acc := by
  simp only [passStep]
  rw [if_neg (by simp [h])]

/-- Invariant of a coalescing pass (for a mask of at least one bit): after
processing bytes `0 .. k-1`, `count` has advanced by the number of distinct
lines among them (lines are consecutive, so that is last line − first
line + 1) and `prevSetVal` holds the masked value of the last byte. -/
theorem runPass_count_invariant (g : Geometry) (m value len : Nat) (st : SimState)
    (hm : 1 ≤ m) (hwrap : value + len ≤ 2 ^ 64) :
    ∀ k, 1 ≤ k → k ≤ len →
      ((List.range k).foldl (passStep g m value) (st, -1)).1.count
          = st.count + (((value + (k - 1)) >>> g.b) - (value >>> g.b)) + 1
      ∧ ((List.range k).foldl (passStep g m value) (st, -1)).2
          = ((((value + (k - 1)) >>> g.b) % 2 ^ m : Nat) : Int) := by
  intro k
  induction k with
  | zero => intro h1 h2; omega
  | succ k ih =>
    intro h1 h2
    rcases Nat.eq_zero_or_pos k with h0 | hpos
    · subst h0
      rw [List.range_succ, List.range_zero, List.nil_append, List.foldl_cons, List.foldl_nil]
      rw [passStep_call g m value (st, -1) 0 (fun h => neg_one_ne_natCast _ h)]
      have ha : (value + 0) % 2 ^ 64 = value := by
        have : value < 2 ^ 64 := by omega
        simpa using Nat.mod_eq_of_lt this
      rw [ha]
      constructor
      · rw [accessN_count]
        simp
      · simp
    · have ih' := ih hpos (by omega)
      obtain ⟨ihc, ihp⟩ := ih'
      rw [List.range_succ, List.foldl_append, List.foldl_cons, List.foldl_nil]
      have hak : (value + k) % 2 ^ 64 = value + k := Nat.mod_eq_of_lt (by omega)
      have hmono : (value + (k - 1)) >>> g.b ≤ (value + k) >>> g.b :=
        shiftRight_mono _ (by omega)
      have hstep : (value + k) >>> g.b ≤ (value + (k - 1)) >>> g.b + 1 := by
        have hk : value + k = (value + (k - 1)) + 1 := by omega
        rw [hk]
        exact shiftRight_succ_le _ _
      have hL0 : value >>> g.b ≤ (value + (k - 1)) >>> g.b := shiftRight_mono _ (by omega)
      by_cases hLeq : (value + k) >>> g.b = (value + (k - 1)) >>> g.b
      · rw [passStep_skip g m value _ k (by rw [ihp, hak, hLeq])]
        constructor
        · rw [ihc]
          simp only [Nat.add_sub_cancel]
          rw [hLeq]
        · rw [ihp]
          simp only [Nat.add_sub_cancel]
          rw [hLeq]
      · have hlk : (value + k) >>> g.b = (value + (k - 1)) >>> g.b + 1 := by omega
        have hne : ((List.range k).foldl (passStep g m value) (st, -1)).2
            ≠ (((((value + k) % 2 ^ 64) >>> g.b) % 2 ^ m : Nat) : Int) := by
          rw [ihp, hak, hlk]
          intro hcast
          exact mod_two_pow_succ_ne hm _ (by exact_mod_cast hcast.symm)
        rw [passStep_call g m value _ k hne]
        constructor
        · rw [accessN_count, ihc]
          simp only [Nat.add_sub_cancel]
          omega
        · simp only [Nat.add_sub_cancel]
          rw [hak]

/-- A coalescing pass over a span lying inside one line makes exactly one
access, to the first byte's address, whatever the mask width. -/
theorem runPass_single_line (g : Geometry) (m value len : Nat) (st : SimState)
    (hlen : 1 ≤ len) (hwrap : value + len ≤ 2 ^ 64)
    (hline : ∀ i, i < len → (value + i) >>> g.b = value >>> g.b) :
    runPass g m value len st = accessN g value st := by
  have key : ∀ k, 1 ≤ k → k ≤ len →
      (List.range k).foldl (passStep g m value) (st, -1)
        = (accessN g value st, ((((value >>> g.b) % 2 ^ m : Nat)) : Int)) := by
    intro k
    induction k with
    | zero => intro h1 h2; omega
    | succ k ih =>
      intro h1 h2
      rcases Nat.eq_zero_or_pos k with h0 | hpos
      · subst h0
        rw [List.range_succ, List.range_zero, List.nil_append, List.foldl_cons, List.foldl_nil]
        rw [passStep_call g m value (st, -1) 0 (fun h => neg_one_ne_natCast _ h)]
        have ha : (value + 0) % 2 ^ 64 = value := by
          have : value < 2 ^ 64 := by omega
          simpa using Nat.mod_eq_of_lt this
        rw [ha]
      · rw [List.range_succ, List.foldl_append, List.foldl_cons, List.foldl_nil,
          ih hpos (by omega)]
        apply passStep_skip
        have hak : (value + k) % 2 ^ 64 = value + k := Nat.mod_eq_of_lt (by omega)
        rw [hak, hline k (by omega)]
  rw [runPass, key len hlen (le_refl len)]

/-! ## Counting distinct lines in a span -/

theorem discrete_ivt (f : Nat → Nat) (hstep : ∀ i, f (i + 1) ≤ f i + 1)
    (hmono : ∀ i j, i ≤ j → f i ≤ f j) :
    ∀ n t, f 0 ≤ t → t ≤ f n → ∃ i, i ≤ n ∧ f i = t := by
  intro n
  induction n with
  | zero => intro t h1 h2; exact ⟨0, le_refl 0, by omega⟩
  | succ n ih =>
    intro t h1 h2
    by_cases hc : t ≤ f n
    · rcases ih t h1 hc with ⟨i, hi, he⟩
      exact ⟨i, by omega, he⟩
    · have h3 := hstep n
      have h4 := hmono n (n + 1) (by omega)
      exact ⟨n + 1, le_refl _, by omega⟩

theorem linesTouched_card (b value len : Nat) (hlen : 1 ≤ len) :
    ((Finset.range len).image (fun i => (value + i) >>> b)).card
      = linesTouched b value len := by
  have himg : (Finset.range len).image (fun i => (value + i) >>> b)
      = Finset.Icc (value >>> b) ((value + (len - 1)) >>> b) := by
    ext t
    simp only [Finset.mem_image, Finset.mem_range, Finset.mem_Icc]
    constructor
    · rintro ⟨i, hi, rfl⟩
      exact ⟨shiftRight_mono b (by omega), shiftRight_mono b (by omega)⟩
    · rintro ⟨h1, h2⟩
      have hex := discrete_ivt (fun i => (value + i) >>> b)
        (fun i => by
          have hi : value + (i + 1) = (value + i) + 1 := by omega
          simpa [hi] using shiftRight_succ_le (value + i) b)
        (fun i j hij => shiftRight_mono b (by omega))
        (len - 1) t (by simpa using h1) h2
      rcases hex with ⟨i, hi, he⟩
      exact ⟨i, by omega, he⟩
  rw [himg, Nat.card_Icc]
  have := shiftRight_mono b (show value ≤ value + (len - 1) by omega)
  simp only [linesTouched]
  omega

/-- C1 (amended): a coalescing pass of the Replayer over the byte span
`[value, value + len)` (`len ≥ 1`, span not wrapping) calls `access_data`
exactly once per distinct cache line touched — the number of calls, read
off the advance of `count`, equals `linesTouched`, which in turn is the
number of distinct line numbers of the span — provided the coalescing mask
is at least one bit wide (`maskBits ≥ 1`, i.e. `lineBytes ≥ 2` for the
pass that Load/Store records and the read half of Modify records use, and
`setCount ≥ 2` for the write pass of Modify records). -/
theorem C1_pass_once_per_line (g : Geometry) (st : SimState) (maskBits value len : Nat)
    (hlen : 1 ≤ len) (hwrap : value + len ≤ 2 ^ 64) (hm : 1 ≤ maskBits) :
    (runPass g maskBits value len st).count = st.count + linesTouched g.b value len
    ∧ ((Finset.range len).image (fun i => (value + i) >>> g.b)).card
        = linesTouched g.b value len := by
  constructor
  · have hinv := (runPass_count_invariant g maskBits value len st hm hwrap len hlen
      (le_refl len)).1
    rw [runPass, hinv]
    simp only [linesTouched]
    omega
  · exact linesTouched_card g.b value len hlen

/-- C1 counterexample: with `lineBytes = 1` (a legal power-of-two geometry)
the coalescing mask is zero bits wide, so the record `L 0,2`, whose span
touches the two distinct lines 0 and 1, produces a single `access_data`
call, not two. -/
theorem C1_counterexample :
    ((Finset.range 2).image (fun i => ((0 : Nat) + i) >>> 0)).card = 2
    ∧ (replay_trace ⟨0, 0, 1, Policy.FIFO⟩ [⟨'L', 0, 2⟩]
        (initState ⟨0, 0, 1, Policy.FIFO⟩)).count = 1 := by
  constructor
  · decide
  · decide

theorem C1_pass_once_per_line_witness :
    (runPass ⟨1, 4, 1, Policy.FIFO⟩ 4 0 20 (initState ⟨1, 4, 1, Policy.FIFO⟩)).count
        = (initState ⟨1, 4, 1, Policy.FIFO⟩).count + linesTouched 4 0 20
    ∧ ((Finset.range 20).image (fun i => ((0 : Nat) + i) >>> 4)).card
        = linesTouched 4 0 20 :=
  C1_pass_once_per_line ⟨1, 4, 1, Policy.FIFO⟩ (initState ⟨1, 4, 1, Policy.FIFO⟩) 4 0 20
    (by decide) (by decide) (by decide)

/-- C9: with geometry `S = 1, K = 1, B = 16`, policy LRU, the trace
`L 0,1` then `L 20,1` (hex) ends with `hits = 0`, `misses = 2`,
`evictions = 1`, and the program's single output line is exactly
`hits:0 misses:2 evictions:1`. -/
theorem C9_end_to_end :
    (replay_trace ⟨0, 4, 1, Policy.LRU⟩ [⟨'L', 0, 1⟩, ⟨'L', 0x20, 1⟩]
        (initState ⟨0, 4, 1, Policy.LRU⟩)).hit_count = 0
    ∧ (replay_trace ⟨0, 4, 1, Policy.LRU⟩ [⟨'L', 0, 1⟩, ⟨'L', 0x20, 1⟩]
        (initState ⟨0, 4, 1, Policy.LRU⟩)).miss_count = 2
    ∧ (replay_trace ⟨0, 4, 1, Policy.LRU⟩ [⟨'L', 0, 1⟩, ⟨'L', 0x20, 1⟩]
        (initState ⟨0, 4, 1, Policy.LRU⟩)).eviction_count = 1
    ∧ simOutput ⟨0, 4, 1, Policy.LRU⟩ [⟨'L', 0, 1⟩, ⟨'L', 0x20, 1⟩]
        = "hits:0 misses:2 evictions:1\n" := by
  refine ⟨by decide, by decide, by decide, ?_⟩
  rfl

/-- C2 counterexample: with `linesPerSet = 2`, FIFO, distinct tags
`A = 0`, `B = 1`, `C = 2` (geometry `S = 1, B = 1`, so tag = address):
after accessing A, B, A (hit), C, the set still holds a valid line with
tag B (the scan finds it at index 1) and holds no valid line with tag A —
the code evicted A, whereas the claim says B is evicted and A kept. -/
theorem C2_counterexample :
    findHit 1 ((runAccesses ⟨0, 0, 2, Policy.FIFO⟩ [0, 1, 0, 2]
        (initState ⟨0, 0, 2, Policy.FIFO⟩)).cache.getD 0 []) = some 1
    ∧ findHit 0 ((runAccesses ⟨0, 0, 2, Policy.FIFO⟩ [0, 1, 0, 2]
        (initState ⟨0, 0, 2, Policy.FIFO⟩)).cache.getD 0 []) = none := by
  constructor
  · decide
  · decide

/-- C2 (amended): with `linesPerSet = 2` and policy FIFO, accessing tag A,
then tag B (filling both lines), then A again (a hit that does not refresh
FIFO recency), then a new tag C (miss with a full set) evicts the line
holding A — the first-inserted line — and keeps the line holding B: the
final state holds C in slot 0 (stamp 3) and B in slot 1 (stamp 1), with
1 hit, 3 misses, 1 eviction.  (Stated for the one-set geometry
`S = 1, B = 1, K = 2`, where the tag of an address is the address
itself.) -/
theorem C2_fifo_no_refresh (A B C : Nat) (hAB : A ≠ B) (hAC : A ≠ C) (hBC : B ≠ C) :
    runAccesses ⟨0, 0, 2, Policy.FIFO⟩ [A, B, A, C] (initState ⟨0, 0, 2, Policy.FIFO⟩)
      = ⟨[[⟨true, C, 3⟩, ⟨true, B, 1⟩]], 1, 3, 1, 4⟩ := by
  have eAB : (A == B) = false := by simp [hAB]
  have eAC : (A == C) = false := by simp [hAC]
  have eBC : (B == C) = false := by simp [hBC]
  have eAA : (A == A) = true := by simp
  have h1 : accessN ⟨0, 0, 2, Policy.FIFO⟩ A (initState ⟨0, 0, 2, Policy.FIFO⟩)
      = ⟨[[⟨true, A, 0⟩, ⟨false, 0, 0⟩]], 0, 1, 0, 1⟩ := by
    simp only [accessN, access_data, currSetOf, setIndexOf, tagOf, initState, findHit,
      firstInvalid, victimIndex, victimScan, updBlock, List.replicate,
      Nat.shiftRight_zero, pow_zero, Nat.mod_one, Nat.add_zero, Nat.zero_add,
      List.getD_cons_zero, List.getD_cons_succ, List.all_cons, List.all_nil,
      List.set_cons_zero, List.set_cons_succ, Bool.and_false, Bool.and_true,
      Bool.false_and, Bool.true_and, if_true, if_false, Option.map_some,
      Option.map_none, Option.getD_some, Bool.false_eq_true, List.getD]
    simp
  have h2 : accessN ⟨0, 0, 2, Policy.FIFO⟩ B ⟨[[⟨true, A, 0⟩, ⟨false, 0, 0⟩]], 0, 1, 0, 1⟩
      = ⟨[[⟨true, A, 0⟩, ⟨true, B, 1⟩]], 0, 2, 0, 2⟩ := by
    simp only [accessN, access_data, currSetOf, setIndexOf, tagOf, findHit,
      firstInvalid, victimIndex, victimScan, updBlock,
      Nat.shiftRight_zero, pow_zero, Nat.mod_one, Nat.add_zero, Nat.zero_add,
      List.getD_cons_zero, List.getD_cons_succ, List.all_cons, List.all_nil,
      List.set_cons_zero, List.set_cons_succ, eAB, Bool.and_false, Bool.and_true,
      Bool.false_and, Bool.true_and, if_true, if_false, Option.map_some,
      Option.map_none, Option.getD_some, Bool.false_eq_true, List.getD]
    simp
  have h3 : accessN ⟨0, 0, 2, Policy.FIFO⟩ A ⟨[[⟨true, A, 0⟩, ⟨true, B, 1⟩]], 0, 2, 0, 2⟩
      = ⟨[[⟨true, A, 0⟩, ⟨true, B, 1⟩]], 1, 2, 0, 3⟩ := by
    simp only [accessN, access_data, currSetOf, setIndexOf, tagOf, findHit,
      firstInvalid, victimIndex, victimScan, updBlock,
      Nat.shiftRight_zero, pow_zero, Nat.mod_one, Nat.add_zero, Nat.zero_add,
      List.getD_cons_zero, List.getD_cons_succ, List.all_cons, List.all_nil,
      List.set_cons_zero, List.set_cons_succ, eAA, Bool.and_false, Bool.and_true,
      Bool.false_and, Bool.true_and, if_true, if_false, Option.map_some,
      Option.map_none, Option.getD_some, List.getD]
    simp
  have h4 : accessN ⟨0, 0, 2, Policy.FIFO⟩ C ⟨[[⟨true, A, 0⟩, ⟨true, B, 1⟩]], 1, 2, 0, 3⟩
      = ⟨[[⟨true, C, 3⟩, ⟨true, B, 1⟩]], 1, 3, 1, 4⟩ := by
    simp only [accessN, access_data, currSetOf, setIndexOf, tagOf, findHit,
      firstInvalid, victimIndex, victimScan, updBlock,
      Nat.shiftRight_zero, pow_zero, Nat.mod_one, Nat.add_zero, Nat.zero_add,
      List.getD_cons_zero, List.getD_cons_succ, List.all_cons, List.all_nil,
      List.set_cons_zero, List.set_cons_succ, eAC, eBC, Bool.and_false, Bool.and_true,
      Bool.false_and, Bool.true_and, if_true, if_false, Option.map_some,
      Option.map_none, Option.getD_some, List.getD]
    simp
  simp only [runAccesses, List.foldl_cons, List.foldl_nil]
  rw [h1, h2, h3, h4]

theorem C2_fifo_no_refresh_witness :
    runAccesses ⟨0, 0, 2, Policy.FIFO⟩ [0, 1, 0, 2] (initState ⟨0, 0, 2, Policy.FIFO⟩)
      = ⟨[[⟨true, 2, 3⟩, ⟨true, 1, 1⟩]], 1, 3, 1, 4⟩ :=
  C2_fifo_no_refresh 0 1 2 (by decide) (by decide) (by decide)

/-- C3: on an access that misses in a set whose lines are all valid, the
miss and eviction counters are incremented (hits unchanged), the victim is
the line with minimum `trackID` (ties broken by lowest index; stated under
the C `int` bound on stamps), and the victim line is overwritten with the
new tag, recency stamp `count`, and valid flag true; no other line or set
changes. -/
theorem C3_eviction (g : Geometry) (st : SimState) (addr : Nat)
    (hmiss : findHit (tagOf g addr) (currSetOf g st addr) = none)
    (hfull : (currSetOf g st addr).all (fun blk => blk.Valid) = true)
    (hne : currSetOf g st addr ≠ [])
    (hSI : setIndexOf g addr < st.cache.length)
    (hIM : ∀ blk ∈ currSetOf g st addr, blk.trackID < 2 ^ 31 - 1) :
    (access_data g addr st).miss_count = st.miss_count + 1
    ∧ (access_data g addr st).eviction_count = st.eviction_count + 1
    ∧ (access_data g addr st).hit_count = st.hit_count
    ∧ victimIndex (currSetOf g st addr) < (currSetOf g st addr).length
    ∧ blkD (currSetOf g (access_data g addr st) addr) (victimIndex (currSetOf g st addr))
        = ⟨true, tagOf g addr, st.count⟩
    ∧ (∀ j, j ≠ victimIndex (currSetOf g st addr) →
        blkD (currSetOf g (access_data g addr st) addr) j = blkD (currSetOf g st addr) j)
    ∧ (∀ t, t ≠ setIndexOf g addr →
        (access_data g addr st).cache.getD t [] = st.cache.getD t [])
    ∧ (∀ j, j < (currSetOf g st addr).length →
        (blkD (currSetOf g st addr) (victimIndex (currSetOf g st addr))).trackID
          ≤ (blkD (currSetOf g st addr) j).trackID)
    ∧ (∀ j, j < victimIndex (currSetOf g st addr) →
        (blkD (currSetOf g st addr) (victimIndex (currSetOf g st addr))).trackID
          < (blkD (currSetOf g st addr) j).trackID) := by
  obtain ⟨hv, hmin, hstrict⟩ := victimIndex_argmin (currSetOf g st addr) hne hIM
  have hcounts := access_counts_miss_full g addr st hmiss hfull
  have heq := access_data_miss_full g addr st hmiss hfull
  have hcs : currSetOf g (access_data g addr st) addr
      = updBlock (fun _ => ⟨true, tagOf g addr, st.count⟩)
          (victimIndex (currSetOf g st addr)) (currSetOf g st addr) := by
    rw [heq]
    exact getD_set_self _ _ _ _ hSI
  refine ⟨hcounts.2.1, hcounts.2.2, hcounts.1, hv, ?_, ?_, ?_, hmin, hstrict⟩
  · rw [hcs, blkD_updBlock_self _ _ _ hv]
  · intro j hj
    rw [hcs, blkD_updBlock_ne _ _ _ _ hj]
  · intro t ht
    rw [heq]
    exact getD_set_ne _ _ _ _ _ (fun hh => ht hh.symm)

theorem C3_eviction_witness :
    (access_data ⟨0, 0, 2, Policy.FIFO⟩ 1 ⟨[[⟨true, 4, 9⟩, ⟨true, 7, 3⟩]], 0, 0, 0, 5⟩).miss_count = 1
    ∧ (access_data ⟨0, 0, 2, Policy.FIFO⟩ 1 ⟨[[⟨true, 4, 9⟩, ⟨true, 7, 3⟩]], 0, 0, 0, 5⟩).eviction_count = 1
    ∧ (access_data ⟨0, 0, 2, Policy.FIFO⟩ 1 ⟨[[⟨true, 4, 9⟩, ⟨true, 7, 3⟩]], 0, 0, 0, 5⟩).hit_count = 0
    ∧ victimIndex [⟨true, 4, 9⟩, ⟨true, 7, 3⟩] < 2
    ∧ blkD (currSetOf ⟨0, 0, 2, Policy.FIFO⟩
        (access_data ⟨0, 0, 2, Policy.FIFO⟩ 1 ⟨[[⟨true, 4, 9⟩, ⟨true, 7, 3⟩]], 0, 0, 0, 5⟩) 1)
        (victimIndex [⟨true, 4, 9⟩, ⟨true, 7, 3⟩]) = ⟨true, 1, 5⟩ := by
  have h := C3_eviction ⟨0, 0, 2, Policy.FIFO⟩ ⟨[[⟨true, 4, 9⟩, ⟨true, 7, 3⟩]], 0, 0, 0, 5⟩ 1
    (by decide) (by decide) (by decide) (by decide) (by decide)
  exact ⟨h.1, h.2.1, h.2.2.1, h.2.2.2.1, h.2.2.2.2.1⟩

/-- C4: on an access that hits at line `i`, the hit counter is incremented
and the other counters (and `count`, which `access_data` never writes) are
unchanged; the hit line keeps its valid flag and tag; under LRU its
recency stamp becomes the current `count`, under FIFO the whole cache is
untouched; no other line of the set and no other set changes. -/
theorem C4_hit_update (g : Geometry) (st : SimState) (addr : Nat) (i : Nat)
    (hhit : findHit (tagOf g addr) (currSetOf g st addr) = some i)
    (hSI : setIndexOf g addr < st.cache.length) :
    (access_data g addr st).hit_count = st.hit_count + 1
    ∧ (access_data g addr st).miss_count = st.miss_count
    ∧ (access_data g addr st).eviction_count = st.eviction_count
    ∧ (access_data g addr st).count = st.count
    ∧ (blkD (currSetOf g (access_data g addr st) addr) i).Valid
        = (blkD (currSetOf g st addr) i).Valid
    ∧ (blkD (currSetOf g (access_data g addr st) addr) i).tag
        = (blkD (currSetOf g st addr) i).tag
    ∧ (g.policy = Policy.LRU →
        (blkD (currSetOf g (access_data g addr st) addr) i).trackID = st.count)
    ∧ (g.policy = Policy.FIFO → (access_data g addr st).cache = st.cache)
    ∧ (∀ j, j ≠ i →
        blkD (currSetOf g (access_data g addr st) addr) j = blkD (currSetOf g st addr) j)
    ∧ (∀ t, t ≠ setIndexOf g addr →
        (access_data g addr st).cache.getD t [] = st.cache.getD t []) := by
  have hcounts := access_counts_hit g addr st i hhit
  have hcnt := access_count_eq g addr st
  obtain ⟨hilen, hiv, hitag⟩ := findHit_some _ _ i hhit
  have heq := access_data_hit g addr st i hhit
  by_cases hp : g.policy = Policy.LRU
  · rw [if_pos hp] at heq
    have hcs : currSetOf g (access_data g addr st) addr
        = updBlock (fun blk => { blk with trackID := st.count }) i (currSetOf g st addr) := by
      rw [heq]
      exact getD_set_self _ _ _ _ hSI
    refine ⟨hcounts.1, hcounts.2.1, hcounts.2.2, hcnt, ?_, ?_, ?_, ?_, ?_, ?_⟩
    · rw [hcs, blkD_updBlock_self _ _ _ hilen]
    · rw [hcs, blkD_updBlock_self _ _ _ hilen]
    · intro _
      rw [hcs, blkD_updBlock_self _ _ _ hilen]
    · intro hf
      rw [hf] at hp
      exact Policy.noConfusion hp
    · intro j hj
      rw [hcs, blkD_updBlock_ne _ _ _ _ hj]
    · intro t ht
      rw [heq]
      exact getD_set_ne _ _ _ _ _ (fun hh => ht hh.symm)
  · rw [if_neg hp] at heq
    have hcache : (access_data g addr st).cache = st.cache := by rw [heq]
    have hcs : currSetOf g (access_data g addr st) addr = currSetOf g st addr := by
      simp only [currSetOf, hcache]
    refine ⟨hcounts.1, hcounts.2.1, hcounts.2.2, hcnt, by rw [hcs], by rw [hcs],
      fun hl => absurd hl hp, fun _ => hcache, fun j _ => by rw [hcs],
      fun t _ => by rw [hcache]⟩

theorem C4_hit_update_witness :
    (access_data ⟨0, 0, 1, Policy.LRU⟩ 5 ⟨[[⟨true, 5, 0⟩]], 0, 0, 0, 7⟩).hit_count = 1
    ∧ (access_data ⟨0, 0, 1, Policy.LRU⟩ 5 ⟨[[⟨true, 5, 0⟩]], 0, 0, 0, 7⟩).miss_count = 0
    ∧ (access_data ⟨0, 0, 1, Policy.LRU⟩ 5 ⟨[[⟨true, 5, 0⟩]], 0, 0, 0, 7⟩).eviction_count = 0
    ∧ (access_data ⟨0, 0, 1, Policy.LRU⟩ 5 ⟨[[⟨true, 5, 0⟩]], 0, 0, 0, 7⟩).count = 7
    ∧ (blkD (currSetOf ⟨0, 0, 1, Policy.LRU⟩
        (access_data ⟨0, 0, 1, Policy.LRU⟩ 5 ⟨[[⟨true, 5, 0⟩]], 0, 0, 0, 7⟩) 5) 0).trackID = 7 := by
  have h := C4_hit_update ⟨0, 0, 1, Policy.LRU⟩ ⟨[[⟨true, 5, 0⟩]], 0, 0, 0, 7⟩ 5 0
    (by decide) (by decide)
  exact ⟨h.1, h.2.1, h.2.2.1, h.2.2.2.1, h.2.2.2.2.2.2.1 rfl⟩

theorem line_const_of_endpoint (b value len : Nat) (hlen : 1 ≤ len)
    (hend : (value + (len - 1)) >>> b = value >>> b) :
    ∀ i, i < len → (value + i) >>> b = value >>> b := by
  intro i hi
  have h1 : value >>> b ≤ (value + i) >>> b := shiftRight_mono b (by omega)
  have h2 : (value + i) >>> b ≤ (value + (len - 1)) >>> b := shiftRight_mono b (by omega)
  omega

/-- C5 counterexample: a `Modify` record over a fresh address whose span
covers two lines (`M 0,32` with `B = 16`, `S = 2`) yields two misses and
two hits, not exactly one miss followed by one hit. -/
theorem C5_counterexample :
    (replay_trace ⟨1, 4, 1, Policy.LRU⟩ [⟨'M', 0, 32⟩]
        (initState ⟨1, 4, 1, Policy.LRU⟩)).miss_count = 2
    ∧ (replay_trace ⟨1, 4, 1, Policy.LRU⟩ [⟨'M', 0, 32⟩]
        (initState ⟨1, 4, 1, Policy.LRU⟩)).hit_count = 2 := by
  constructor
  · decide
  · decide

/-- C5 (amended): for a `Modify` record on an address whose tag is not in
the addressed set ("never seen before"), with a span of at least one byte
lying within a single cache line and not wrapping, the Replayer performs
the read pass (exactly one miss, no hit — the line is installed) and then
the write pass (exactly one hit): one miss followed by one hit.  Spans
covering several lines instead give one miss and one hit per line
touched. -/
theorem C5_modify_miss_then_hit (g : Geometry) (st : SimState) (value len : Nat)
    (hlen : 1 ≤ len) (hwrap : value + len ≤ 2 ^ 64)
    (hline : (value + (len - 1)) >>> g.b = value >>> g.b)
    (hmiss : findHit (tagOf g value) (currSetOf g st value) = none)
    (hSI : setIndexOf g value < st.cache.length)
    (hne : currSetOf g st value ≠ []) :
    (runPass g g.b value len st).miss_count = st.miss_count + 1
    ∧ (runPass g g.b value len st).hit_count = st.hit_count
    ∧ (replayRecord g st ⟨'M', value, len⟩).miss_count = st.miss_count + 1
    ∧ (replayRecord g st ⟨'M', value, len⟩).hit_count = st.hit_count + 1 := by
  have hl := line_const_of_endpoint g.b value len hlen hline
  have hp1 : runPass g g.b value len st = accessN g value st :=
    runPass_single_line g g.b value len st hlen hwrap hl
  have hmiss_counts : (access_data g value st).miss_count = st.miss_count + 1
      ∧ (access_data g value st).hit_count = st.hit_count := by
    by_cases hfull : (currSetOf g st value).all (fun blk => blk.Valid) = true
    · have h := access_counts_miss_full g value st hmiss hfull
      exact ⟨h.2.1, h.1⟩
    · have hnf : (currSetOf g st value).all (fun blk => blk.Valid) = false := by
        revert hfull
        cases (currSetOf g st value).all (fun blk => blk.Valid) <;> simp
      have h := access_counts_miss_free g value st hmiss hnf
      exact ⟨h.2.1, h.1⟩
  have hm1 : (accessN g value st).miss_count = st.miss_count + 1 := hmiss_counts.1
  have hh1 : (accessN g value st).hit_count = st.hit_count := hmiss_counts.2
  have hrr : replayRecord g st ⟨'M', value, len⟩
      = runPass g g.s value len (runPass g g.b value len st) := by
    simp [replayRecord]
  have hp2 : runPass g g.s value len (accessN g value st)
      = accessN g value (accessN g value st) :=
    runPass_single_line g g.s value len (accessN g value st) hlen hwrap hl
  obtain ⟨j, hj⟩ := access_installs g value st hSI hne
  have h2 := access_counts_hit g value (accessN g value st) j hj
  refine ⟨by rw [hp1]; exact hm1, by rw [hp1]; exact hh1, ?_, ?_⟩
  · rw [hrr, hp1, hp2]
    show (access_data g value (accessN g value st)).miss_count = st.miss_count + 1
    rw [h2.2.1]
    exact hm1
  · rw [hrr, hp1, hp2]
    show (access_data g value (accessN g value st)).hit_count = st.hit_count + 1
    rw [h2.1, hh1]

theorem C5_modify_miss_then_hit_witness :
    (runPass ⟨1, 4, 1, Policy.LRU⟩ 4 0 8 (initState ⟨1, 4, 1, Policy.LRU⟩)).miss_count
        = (initState ⟨1, 4, 1, Policy.LRU⟩).miss_count + 1
    ∧ (runPass ⟨1, 4, 1, Policy.LRU⟩ 4 0 8 (initState ⟨1, 4, 1, Policy.LRU⟩)).hit_count
        = (initState ⟨1, 4, 1, Policy.LRU⟩).hit_count
    ∧ (replayRecord ⟨1, 4, 1, Policy.LRU⟩ (initState ⟨1, 4, 1, Policy.LRU⟩)
        ⟨'M', 0, 8⟩).miss_count = (initState ⟨1, 4, 1, Policy.LRU⟩).miss_count + 1
    ∧ (replayRecord ⟨1, 4, 1, Policy.LRU⟩ (initState ⟨1, 4, 1, Policy.LRU⟩)
        ⟨'M', 0, 8⟩).hit_count = (initState ⟨1, 4, 1, Policy.LRU⟩).hit_count + 1 :=
  C5_modify_miss_then_hit ⟨1, 4, 1, Policy.LRU⟩ (initState ⟨1, 4, 1, Policy.LRU⟩) 0 8
    (by decide) (by decide) (by decide) (by decide) (by decide) (by decide)

/-! ## Counter conservation (C6) -/

theorem access_one_of_three (g : Geometry) (addr : Nat) (st : SimState) :
    ((access_data g addr st).hit_count = st.hit_count + 1
      ∧ (access_data g addr st).miss_count = st.miss_count
      ∧ (access_data g addr st).eviction_count = st.eviction_count)
    ∨ ((access_data g addr st).hit_count = st.hit_count
      ∧ (access_data g addr st).miss_count = st.miss_count + 1
      ∧ (access_data g addr st).eviction_count = st.eviction_count)
    ∨ ((access_data g addr st).hit_count = st.hit_count
      ∧ (access_data g addr st).miss_count = st.miss_count + 1
      ∧ (access_data g addr st).eviction_count = st.eviction_count + 1) := by
  rcases hfh : findHit (tagOf g addr) (currSetOf g st addr) with _ | i
  · by_cases hfull : (currSetOf g st addr).all (fun blk => blk.Valid) = true
    · exact Or.inr (Or.inr (access_counts_miss_full g addr st hfh hfull))
    · have hnf : (currSetOf g st addr).all (fun blk => blk.Valid) = false := by
        revert hfull
        cases (currSetOf g st addr).all (fun blk => blk.Valid) <;> simp
      exact Or.inr (Or.inl (access_counts_miss_free g addr st hfh hnf))
  · exact Or.inl (access_counts_hit g addr st i hfh)

theorem foldl_preserve {α β : Type _} (P : α → Prop) (f : α → β → α)
    (hf : ∀ acc x, P acc → P (f acc x)) :
    ∀ (l : List β) (init : α), P init → P (l.foldl f init) := by
  intro l
  induction l with
  | nil => intro init h; exact h
  | cons x xs ih =>
    intro init h
    exact ih (f init x) (hf init x h)

theorem accessN_preserves_good (g : Geometry) (addr : Nat) (st : SimState)
    (h : goodCounters st) : goodCounters (accessN g addr st) := by
  have h3 := access_one_of_three g addr st
  have hc : (accessN g addr st).count = st.count + 1 := accessN_count g addr st
  have e1 : (accessN g addr st).hit_count = (access_data g addr st).hit_count := rfl
  have e2 : (accessN g addr st).miss_count = (access_data g addr st).miss_count := rfl
  have e3 : (accessN g addr st).eviction_count = (access_data g addr st).eviction_count := rfl
  obtain ⟨h1, h2⟩ := h
  constructor
  · rcases h3 with ⟨a, b, c⟩ | ⟨a, b, c⟩ | ⟨a, b, c⟩ <;> omega
  · rcases h3 with ⟨a, b, c⟩ | ⟨a, b, c⟩ | ⟨a, b, c⟩ <;> omega

theorem passStep_preserves_good (g : Geometry) (m value : Nat) (acc : SimState × Int)
    (i : Nat) (h : goodCounters acc.1) : goodCounters (passStep g m value acc i).1 := by
  simp only [passStep]
  split
  · exact accessN_preserves_good g _ acc.1 h
  · exact h

theorem runPass_preserves_good (g : Geometry) (m value len : Nat) (st : SimState)
    (h : goodCounters st) : goodCounters (runPass g m value len st) := by
  rw [runPass]
  exact foldl_preserve (fun acc : SimState × Int => goodCounters acc.1)
    (passStep g m value) (fun acc x hacc => passStep_preserves_good g m value acc x hacc)
    (List.range len) (st, -1) h

theorem replayRecord_preserves_good (g : Geometry) (st : SimState) (r : Record)
    (h : goodCounters st) : goodCounters (replayRecord g st r) := by
  simp only [replayRecord]
  split
  · exact runPass_preserves_good g g.s r.value r.len _
      (runPass_preserves_good g g.b r.value r.len st h)
  · exact runPass_preserves_good g g.b r.value r.len st h

/-- C6: after replaying any record sequence from the initial state,
`hits + misses` equals `count` (which advances by exactly one at every
distinct-line access call, see the second part), `evictions ≤ misses`, and
every single `access_data` call increments exactly one of: the hit
counter; the miss counter; or the miss and eviction counters together. -/
theorem C6_counter_conservation (g : Geometry) :
    (∀ records : List Record,
      (replay_trace g records (initState g)).hit_count
          + (replay_trace g records (initState g)).miss_count
        = (replay_trace g records (initState g)).count
      ∧ (replay_trace g records (initState g)).eviction_count
          ≤ (replay_trace g records (initState g)).miss_count)
    ∧ (∀ (st : SimState) (addr : Nat),
        (accessN g addr st).count = st.count + 1
        ∧ (((access_data g addr st).hit_count = st.hit_count + 1
            ∧ (access_data g addr st).miss_count = st.miss_count
            ∧ (access_data g addr st).eviction_count = st.eviction_count)
          ∨ ((access_data g addr st).hit_count = st.hit_count
            ∧ (access_data g addr st).miss_count = st.miss_count + 1
            ∧ (access_data g addr st).eviction_count = st.eviction_count)
          ∨ ((access_data g addr st).hit_count = st.hit_count
            ∧ (access_data g addr st).miss_count = st.miss_count + 1
            ∧ (access_data g addr st).eviction_count = st.eviction_count + 1))) := by
  constructor
  · intro records
    have key : goodCounters (replay_trace g records (initState g)) := by
      rw [replay_trace]
      exact foldl_preserve goodCounters (replayRecord g)
        (fun st r h => replayRecord_preserves_good g st r h) records (initState g)
        ⟨rfl, le_refl 0⟩
    exact key
  · intro st addr
    exact ⟨accessN_count g addr st, access_one_of_three g addr st⟩

/-! ## Tag distinctness invariant (C7) -/

theorem set_of_length_le {α : Type _} (a : α) (xs : List α) (n : Nat)
    (h : xs.length ≤ n) : xs.set n a = xs := by
  induction xs generalizing n with
  | nil => rfl
  | cons x xs ih =>
    cases n with
    | zero => simp at h
    | succ n =>
      simp only [List.set]
      rw [ih n (by simpa using h)]

theorem setDistinct_nil : setDistinct [] := by
  intro i j hi hj hij hvi hvj
  simp at hi

theorem setDistinct_updBlock_trackID (l : List Block) (n c : Nat) (h : setDistinct l) :
    setDistinct (updBlock (fun blk => { blk with trackID := c }) n l) := by
  intro i j hi hj hij hvi hvj
  rw [length_updBlock] at hi hj
  have eV : ∀ k, k < l.length →
      (blkD (updBlock (fun blk => { blk with trackID := c }) n l) k).Valid
          = (blkD l k).Valid
      ∧ (blkD (updBlock (fun blk => { blk with trackID := c }) n l) k).tag
          = (blkD l k).tag := by
    intro k hk
    by_cases hkn : k = n
    · subst hkn
      rw [blkD_updBlock_self _ _ _ hk]
      exact ⟨rfl, rfl⟩
    · rw [blkD_updBlock_ne _ _ _ _ hkn]
      exact ⟨rfl, rfl⟩
  obtain ⟨eVi, eTi⟩ := eV i hi
  obtain ⟨eVj, eTj⟩ := eV j hj
  rw [eTi, eTj]
  have hvi' : (blkD l i).Valid = true := by rw [← eVi]; exact hvi
  have hvj' : (blkD l j).Valid = true := by rw [← eVj]; exact hvj
  exact h i j hi hj hij hvi' hvj'

theorem setDistinct_install (l : List Block) (k T c : Nat)
    (hT : ∀ j, j < l.length → (blkD l j).Valid = true → (blkD l j).tag ≠ T)
    (h : setDistinct l) :
    setDistinct (updBlock (fun _ => ⟨true, T, c⟩) k l) := by
  intro i j hi hj hij hvi hvj
  rw [length_updBlock] at hi hj
  by_cases hik : i = k
  · subst hik
    have hjk : j ≠ i := fun he => hij he.symm
    rw [blkD_updBlock_self _ _ _ hi] at hvi ⊢
    rw [blkD_updBlock_ne _ _ _ _ hjk] at hvj ⊢
    exact fun he => hT j hj hvj (by rw [← he])
  · by_cases hjk : j = k
    · subst hjk
      rw [blkD_updBlock_ne _ _ _ _ hik] at hvi ⊢
      rw [blkD_updBlock_self _ _ _ hj] at hvj ⊢
      exact fun he => hT i hi hvi he
    · rw [blkD_updBlock_ne _ _ _ _ hik] at hvi ⊢
      rw [blkD_updBlock_ne _ _ _ _ hjk] at hvj ⊢
      exact h i j hi hj hij hvi hvj

theorem access_preserves_distinct (g : Geometry) (addr : Nat) (st : SimState)
    (h : cacheDistinct st) : cacheDistinct (access_data g addr st) := by
  have hmain : ∀ (newSet : List Block), setDistinct newSet →
      ∀ t, setDistinct ((st.cache.set (setIndexOf g addr) newSet).getD t []) := by
    intro newSet hnew t
    by_cases ht : t = setIndexOf g addr
    · by_cases hlt : setIndexOf g addr < st.cache.length
      · rw [ht, getD_set_self _ _ _ _ hlt]
        exact hnew
      · rw [set_of_length_le _ _ _ (by omega)]
        exact h t
    · rw [getD_set_ne _ _ _ _ _ (fun he => ht he.symm)]
      exact h t
  rcases hfh : findHit (tagOf g addr) (currSetOf g st addr) with _ | i
  · by_cases hfull : (currSetOf g st addr).all (fun blk => blk.Valid) = true
    · rw [access_data_miss_full g addr st hfh hfull]
      intro t
      exact hmain (updBlock (fun _ => ⟨true, tagOf g addr, st.count⟩)
          (victimIndex (currSetOf g st addr)) (currSetOf g st addr))
        (setDistinct_install (currSetOf g st addr) (victimIndex (currSetOf g st addr))
          (tagOf g addr) st.count (findHit_none_valid_ne _ _ hfh) (h (setIndexOf g addr))) t
    · have hnf : (currSetOf g st addr).all (fun blk => blk.Valid) = false := by
        revert hfull
        cases (currSetOf g st addr).all (fun blk => blk.Valid) <;> simp
      rw [access_data_miss_free g addr st hfh hnf]
      intro t
      exact hmain (updBlock (fun _ => ⟨true, tagOf g addr, st.count⟩)
          ((firstInvalid (currSetOf g st addr)).getD 0) (currSetOf g st addr))
        (setDistinct_install (currSetOf g st addr) ((firstInvalid (currSetOf g st addr)).getD 0)
          (tagOf g addr) st.count (findHit_none_valid_ne _ _ hfh) (h (setIndexOf g addr))) t
  · rw [access_data_hit g addr st i hfh]
    by_cases hp : g.policy = Policy.LRU
    · rw [if_pos hp]
      intro t
      exact hmain (updBlock (fun blk => { blk with trackID := st.count }) i
          (currSetOf g st addr))
        (setDistinct_updBlock_trackID (currSetOf g st addr) i st.count
          (h (setIndexOf g addr))) t
    · rw [if_neg hp]
      exact h

theorem getD_replicate {α : Type _} (x d : α) (n t : Nat) :
    (List.replicate n x).getD t d = if t < n then x else d := by
  induction n generalizing t with
  | zero => simp
  | succ n ih =>
    cases t with
    | zero => simp [List.replicate]
    | succ t =>
      simp only [List.replicate, List.getD_cons_succ, ih]
      by_cases hlt : t < n
      · rw [if_pos hlt, if_pos (by omega)]
      · rw [if_neg hlt, if_neg (by omega)]

theorem initState_distinct (g : Geometry) : cacheDistinct (initState g) := by
  intro t
  show setDistinct ((List.replicate (2 ^ g.s) (List.replicate g.K ⟨false, 0, 0⟩)).getD t [])
  rw [getD_replicate]
  by_cases ht : t < 2 ^ g.s
  · rw [if_pos ht]
    intro i j hi hj hij hvi hvj
    have : blkD (List.replicate g.K (⟨false, 0, 0⟩ : Block)) i = ⟨false, 0, 0⟩ := by
      show (List.replicate g.K (⟨false, 0, 0⟩ : Block)).getD i ⟨false, 0, 0⟩ = ⟨false, 0, 0⟩
      rw [getD_replicate]
      split <;> rfl
    rw [this] at hvi
    simp at hvi
  · rw [if_neg ht]
    exact setDistinct_nil

/-- C7: after any sequence of accesses from the all-invalid initial cache,
every set contains no two distinct valid lines with the same tag. -/
theorem C7_distinct_tags (g : Geometry) (addrs : List Nat) (t : Nat) :
    setDistinct ((runAccesses g addrs (initState g)).cache.getD t []) := by
  have key : cacheDistinct (runAccesses g addrs (initState g)) := by
    rw [runAccesses]
    exact foldl_preserve cacheDistinct (fun s a => accessN g a s)
      (fun s a hs => access_preserves_distinct g a s hs) addrs (initState g)
      (initState_distinct g)
  exact key t

/-! ## Recency clock (C8) and access-then-hit (C10) -/

theorem runAccesses_count (g : Geometry) (addrs : List Nat) (st : SimState) :
    (runAccesses g addrs st).count = st.count + addrs.length := by
  induction addrs generalizing st with
  | nil => simp [runAccesses]
  | cons a as ih =>
    show (runAccesses g as (accessN g a st)).count = st.count + (a :: as).length
    rw [ih (accessN g a st), accessN_count]
    simp only [List.length_cons]
    omega

/-- C8: `access_data` itself never writes the global counter; the replay
loop increments it by exactly one after every access call, so the counter
read during call `N` (0-based) — which is the recency stamp any line
written during that call receives, see the hit and eviction theorems — is
`st.count + N`, strictly less than the one read during call `N + 1`. -/
theorem C8_recency_clock (g : Geometry) (st : SimState) (addrs : List Nat) :
    (∀ (a : Nat) (s : SimState), (access_data g a s).count = s.count
      ∧ (accessN g a s).count = s.count + 1)
    ∧ (∀ N, N ≤ addrs.length → (stateBefore g addrs st N).count = st.count + N)
    ∧ (∀ N, N + 1 ≤ addrs.length →
        (stateBefore g addrs st N).count < (stateBefore g addrs st (N + 1)).count) := by
  refine ⟨fun a s => ⟨access_count_eq g a s, accessN_count g a s⟩, ?_, ?_⟩
  · intro N hN
    rw [stateBefore, runAccesses_count, List.length_take, Nat.min_eq_left hN]
  · intro N hN
    have h1 : (stateBefore g addrs st N).count = st.count + N := by
      rw [stateBefore, runAccesses_count, List.length_take, Nat.min_eq_left (by omega)]
    have h2 : (stateBefore g addrs st (N + 1)).count = st.count + (N + 1) := by
      rw [stateBefore, runAccesses_count, List.length_take, Nat.min_eq_left hN]
    omega

theorem C8_recency_clock_witness :
    (stateBefore ⟨0, 0, 1, Policy.FIFO⟩ [3, 7, 9] (initState ⟨0, 0, 1, Policy.FIFO⟩) 1).count
      < (stateBefore ⟨0, 0, 1, Policy.FIFO⟩ [3, 7, 9]
          (initState ⟨0, 0, 1, Policy.FIFO⟩) 2).count :=
  (C8_recency_clock ⟨0, 0, 1, Policy.FIFO⟩ (initState ⟨0, 0, 1, Policy.FIFO⟩)
    [3, 7, 9]).2.2 1 (by decide)

/-- C10: immediately after an access (from any state whose addressed set
exists and is non-empty — true of every reachable cache), the addressed
set contains a valid line carrying the decoded tag, so repeating the same
access immediately is a hit: the hit counter advances and the miss and
eviction counters stay unchanged. -/
theorem C10_access_then_hit (g : Geometry) (st : SimState) (addr : Nat)
    (hSI : setIndexOf g addr < st.cache.length)
    (hne : currSetOf g st addr ≠ []) :
    (∃ j, j < (currSetOf g (accessN g addr st) addr).length
      ∧ (blkD (currSetOf g (accessN g addr st) addr) j).Valid = true
      ∧ (blkD (currSetOf g (accessN g addr st) addr) j).tag = tagOf g addr)
    ∧ (accessN g addr (accessN g addr st)).hit_count = (accessN g addr st).hit_count + 1
    ∧ (accessN g addr (accessN g addr st)).miss_count = (accessN g addr st).miss_count
    ∧ (accessN g addr (accessN g addr st)).eviction_count
        = (accessN g addr st).eviction_count := by
  obtain ⟨j, hj⟩ := access_installs g addr st hSI hne
  have hj' : findHit (tagOf g addr) (currSetOf g (accessN g addr st) addr) = some j := hj
  obtain ⟨hlen, hv, ht⟩ := findHit_some _ _ j hj'
  have h2 := access_counts_hit g addr (accessN g addr st) j hj'
  exact ⟨⟨j, hlen, hv, ht⟩, h2.1, h2.2.1, h2.2.2⟩

theorem C10_access_then_hit_witness :
    (accessN ⟨0, 0, 1, Policy.FIFO⟩ 7 (accessN ⟨0, 0, 1, Policy.FIFO⟩ 7
        (initState ⟨0, 0, 1, Policy.FIFO⟩))).hit_count
      = (accessN ⟨0, 0, 1, Policy.FIFO⟩ 7 (initState ⟨0, 0, 1, Policy.FIFO⟩)).hit_count + 1
    ∧ (accessN ⟨0, 0, 1, Policy.FIFO⟩ 7 (accessN ⟨0, 0, 1, Policy.FIFO⟩ 7
        (initState ⟨0, 0, 1, Policy.FIFO⟩))).miss_count
      = (accessN ⟨0, 0, 1, Policy.FIFO⟩ 7 (initState ⟨0, 0, 1, Policy.FIFO⟩)).miss_count
    ∧ (accessN ⟨0, 0, 1, Policy.FIFO⟩ 7 (accessN ⟨0, 0, 1, Policy.FIFO⟩ 7
        (initState ⟨0, 0, 1, Policy.FIFO⟩))).eviction_count
      = (accessN ⟨0, 0, 1, Policy.FIFO⟩ 7 (initState ⟨0, 0, 1, Policy.FIFO⟩)).eviction_count := by
  have h := C10_access_then_hit ⟨0, 0, 1, Policy.FIFO⟩ (initState ⟨0, 0, 1, Policy.FIFO⟩) 7
    (by decide) (by decide)
  exact ⟨h.2.1, h.2.2.1, h.2.2.2⟩
